import Mathlib

/-!
Verification of the hopeit.engine runtime against its specification.

The definitions below are a shallow embedding of the Python sources:
  - `src/engine/src/hopeit/server/engine.py` (AppEngine)
  - `src/engine/src/hopeit/server/config.py` (config substitution)
  - `src/plugins/streams/redis/src/hopeit/redis_streams/__init__.py`

Python strings are modelled as `List Char` (named `Str`); Python machine
integers the claims touch are small nonnegative counters and are modelled
as `Nat` (with `Int` where Python subtraction may matter).  Fallible code
is modelled with `Except` or explicit error components.  Recursions that
are not structural carry an explicit fuel argument equal to the input
length, so that every definition reduces in the kernel.
-/

/-- Python `str` is modelled as a list of characters. -/
abbrev Str := List Char

/-- Converts a Lean string literal to the `Str` model. -/
def toL (s : String) : Str := s.toList

/-- Association-list lookup, modelling a Python `dict.get` with string keys. -/
def lookupA {β : Type} : List (Str × β) → Str → Option β
  | [], _ => none
  | (k, v) :: rest, key => if k = key then some v else lookupA rest key

/-- Association-list update of the first binding of a key, modelling
assignment to an existing Python `dict` entry. -/
def setA {β : Type} : List (Str × β) → Str → β → List (Str × β)
  | [], _, _ => []
  | (k, v) :: rest, key, value =>
    if k = key then (k, value) :: rest else (k, v) :: setA rest key value

/- ========================================================================
   Section: engine stream queue routing (`AppEngine._write_stream`)
   Source: src/engine/src/hopeit/server/engine.py lines 213..255
   ======================================================================== -/

/-- The special queue token `StreamQueue.AUTO` from `hopeit.app.config`
(denotes the bare stream name, no suffix). -/
def AUTO : Str := toL "AUTO"

/-- `StreamQueueStrategy` from `hopeit.app.config`: `PROPAGATE` forwards the
upstream queue label, `DROP` uses the configured one. -/
inductive StreamQueueStrategy where
  | PROPAGATE
  | DROP
deriving DecidableEq, Repr

/-- The `write_stream` section of an `EventDescriptor`: base stream name,
configured queues and the queue strategy. -/
structure WriteStreamDescriptor where
  name : Str
  queues : List Str
  queue_strategy : StreamQueueStrategy
deriving DecidableEq, Repr

/-- Embeds the target computation of `AppEngine._write_stream`: for each
configured queue the effective stream name and the queue label stamped into
the outbound message, in configured-queue order.  Mirrors engine.py lines
229..244 (one broker write is issued per returned pair). -/
def write_stream_targets (ws : WriteStreamDescriptor) (upstream_queue : Str) :
    List (Str × Str) :=
  ws.queues.map (fun configured_queue =>
    let stream_name :=
      if upstream_queue ≠ AUTO ∧ configured_queue = AUTO ∧
          ws.queue_strategy = StreamQueueStrategy.PROPAGATE then
        ws.name ++ '.' :: upstream_queue
      else if configured_queue ≠ AUTO then
        ws.name ++ '.' :: configured_queue
      else
        ws.name
    let queue_name :=
      if ws.queue_strategy = StreamQueueStrategy.DROP then configured_queue
      else upstream_queue
    (stream_name, queue_name))

/- ========================================================================
   Section: randomized start-up delay (`AppEngine.read_stream`)
   Source: src/engine/src/hopeit/server/engine.py line 434
   ======================================================================== -/

/-- Embeds the start-up wait computation of `AppEngine.read_stream`
(engine.py line 434): `wait = int(wait / 2) + random.randint(0, wait) -
random.randint(0, int(wait / 2))`, where `d` is the configured
`delay_auto_start_seconds` and `r1`, `r2` are the two random draws
(`random.randint` is inclusive on both ends, so `r1 ≤ d` and `r2 ≤ d / 2`).
Python `int(d / 2)` on a nonnegative int is `Nat` division by 2. -/
def startup_wait (d r1 r2 : Nat) : Int :=
  ((d / 2 : Nat) : Int) + (r1 : Int) - (r2 : Int)

/- ========================================================================
   Section: per-message stream processing (`AppEngine._process_stream_event`)
   Source: src/engine/src/hopeit/server/engine.py lines 282..322 and 510..565
   ======================================================================== -/

/-- Outcome of awaiting `AppEngine._execute_event` for a stream message:
it either completes with an (optional) result, raises an exception, or is
cancelled (which is what `asyncio.wait_for` injects when the configured
`stream.timeout` elapses first). -/
inductive ExecOutcome (α : Type) where
  | ok (v : Option α)
  | exc (e : Str)
  | cancelled
deriving DecidableEq, Repr

/-- Value returned by `_process_stream_event` /
`_process_stream_event_with_timeout`: exceptions are returned as values,
never re-raised (engine.py lines 554..565 and 310..322). -/
inductive StreamProcResult (α : Type) where
  | value (v : Option α)
  | error (e : Str)
  | cancelledErr
  | timeoutErr
deriving DecidableEq, Repr

/-- Embeds `AppEngine._process_stream_event` (engine.py lines 510..565).
Returns the processing outcome together with the number of
`ack_read_stream` calls issued for the message: the `try` block acks once
after `_execute_event` returns; the `except CancelledError` and
`except Exception` arms do not ack and return the exception as a value. -/
def process_stream_event {α : Type} : ExecOutcome α → StreamProcResult α × Nat
  | ExecOutcome.ok v => (StreamProcResult.value v, 1)
  | ExecOutcome.exc e => (StreamProcResult.error e, 0)
  | ExecOutcome.cancelled => (StreamProcResult.cancelledErr, 0)

/-- Embeds `AppEngine._process_stream_event_with_timeout` (engine.py lines
282..322): `asyncio.wait_for` with `context.settings.stream.timeout`.
`timedOut` is true when the timeout elapses before `_execute_event`
completes; in that case the inner task is cancelled (so it performs no ack)
and the wrapper catches the `TimeoutError` and returns it as a value. -/
def process_stream_event_with_timeout {α : Type} (timedOut : Bool)
    (o : ExecOutcome α) : StreamProcResult α × Nat :=
  if timedOut then
    (StreamProcResult.timeoutErr,
      (process_stream_event (ExecOutcome.cancelled : ExecOutcome α)).2)
  else
    process_stream_event o

/- ========================================================================
   Section: effective events (`AppEngine._config_effective_events`)
   Source: src/engine/src/hopeit/server/engine.py lines 682..717
   ======================================================================== -/

/-- `EventType` from `hopeit.app.config`. -/
inductive EventTypeM where
  | GET
  | POST
  | MULTIPART
  | STREAM
  | SERVICE
  | SETUP
deriving DecidableEq, Repr

/-- `EventDescriptor.DEFAULT_GROUP` (declared in `hopeit.app.config`, not
under src/).  Modelled from the spec: the default scheduling group; its
concrete text is irrelevant to the claims. -/
def DEFAULT_GROUP : Str := toL "DEFAULT"

/-- Declared event, restricted to the attributes
`_config_effective_events` consults: the event type, the scheduling
`group`, the stage names carved out at SHUFFLE markers in its step list
(empty when the event has no shuffle), and whether its handler module
exports a `__service__` generator hook (`hasattr(impl, "__service__")`). -/
structure EventDescriptorM where
  type : EventTypeM
  group : Str
  shuffleStages : List Str
  hasServiceHandler : Bool
deriving DecidableEq, Repr

/-- Modelled from the spec: `split_event_stages` (hopeit.server.steps, not
under src/) expands a declared event into stage events carved at SHUFFLE
markers, named `<event>$<stage>`; the first stage keeps the declared name
and an event without shuffle markers expands to itself alone. -/
def split_event_stages (name : Str) (info : EventDescriptorM) :
    List (Str × EventDescriptorM) :=
  (name, info) :: info.shuffleStages.map (fun s => (name ++ '$' :: s, info))

/-- Embeds the SERVICE-sibling branch of `_config_effective_events`
(engine.py lines 711..716): a STREAM event whose handler has a
`__service__` hook contributes an extra `<event>$__service__` entry of type
SERVICE. -/
def service_sibling (name : Str) (info : EventDescriptorM) :
    List (Str × EventDescriptorM) :=
  if info.type = EventTypeM.STREAM ∧ info.hasServiceHandler = true then
    [(name ++ '$' :: toL "__service__",
      { type := EventTypeM.SERVICE, group := DEFAULT_GROUP,
        shuffleStages := [], hasServiceHandler := info.hasServiceHandler })]
  else []

/-- Per-event contribution inside the loop of `_config_effective_events`
(engine.py lines 698..716): events pass the group filter when
`enabled_groups` is empty, or their group is the default group, or their
group is enabled; filtered-out events contribute nothing. -/
def effective_contribution (enabled_groups : List Str)
    (p : Str × EventDescriptorM) : List (Str × EventDescriptorM) :=
  if enabled_groups.length = 0 ∨ p.2.group = DEFAULT_GROUP ∨
      p.2.group ∈ enabled_groups then
    split_event_stages p.1 p.2 ++ service_sibling p.1 p.2
  else []

/-- Embeds `AppEngine._config_effective_events` (engine.py lines 682..717).
The Python dict is modelled as the concatenated entry list; under the
uniqueness hypotheses of the claim theorem (declared names distinct and
free of the reserved `$` separator) no key collides, so `dict.update`
coincides with concatenation. -/
def config_effective_events (events : List (Str × EventDescriptorM))
    (enabled_groups : List Str) : List (Str × EventDescriptorM) :=
  (events.map (effective_contribution enabled_groups)).flatten

/-- An effective-event key derived from declared event `e`: the key is `e`
itself or `e` followed by the `$` stage / service separator. -/
def derived_from (e k : Str) : Prop :=
  k = e ∨ ∃ s, k = e ++ '$' :: s

/- ========================================================================
   Section: event execution and outbound batching (`AppEngine._execute_event`)
   Source: src/engine/src/hopeit/server/engine.py lines 155..211
   ======================================================================== -/

/-- Embeds the `async for` loop of `AppEngine._execute_event` (engine.py
lines 175..191).  `yields` is the lazy sequence produced by
`handle_async_event` (possibly containing `None` entries), `batch` and
`result` are the loop state.  Non-null results are appended to the batch;
when the batch reaches `batch_size` and the event declares a write stream
the batch is flushed (one `_write_stream` call per item, via
`_write_stream_batch`) and cleared; a trailing partial batch is flushed
after the loop.  Returns the list of flushed batches in order together with
the final `result` variable (rebound on every yield, `None` included). -/
def execute_event_loop {α : Type} (batch_size : Nat) (write_stream : Bool) :
    List (Option α) → List α → Option α → List (List α) × Option α
  | [], batch, result =>
    (if 0 < batch.length ∧ write_stream then [batch] else [], result)
  | r :: rest, batch, _ =>
    let batch' := match r with
      | some v => batch ++ [v]
      | none => batch
    if batch_size ≤ batch'.length ∧ write_stream then
      let next := execute_event_loop batch_size write_stream rest [] r
      (batch' :: next.1, next.2)
    else
      execute_event_loop batch_size write_stream rest batch' r

/-- Embeds `AppEngine._execute_event`: the loop starts with an empty batch
and `result = None` (engine.py lines 175..176). -/
def execute_event {α : Type} (batch_size : Nat) (write_stream : Bool)
    (yields : List (Option α)) : List (List α) × Option α :=
  execute_event_loop batch_size write_stream yields [] none

/-- Embeds `AppEngine.execute` (engine.py lines 128..153):
`asyncio.wait_for` bounded by `context.settings.response_timeout`;
`timedOut` is true when that timeout elapses first, in which case a
`TimeoutError` is raised to the caller. -/
def execute {α : Type} (timedOut : Bool) (batch_size : Nat)
    (write_stream : Bool) (yields : List (Option α)) :
    Except Str (Option α) :=
  if timedOut then
    Except.error (toL "Response timeout exceeded")
  else
    Except.ok (execute_event batch_size write_stream yields).2

/-- Modelled from the spec words of claim C4: "the last non-null yielded
result".  Used only to compare the spec against the code. -/
def last_non_null {α : Type} (yields : List (Option α)) : Option α :=
  (yields.filterMap id).getLast?

/- ========================================================================
   Section: Redis stream read batch (`RedisStreamManager.read_stream`)
   Source: src/plugins/streams/redis/src/hopeit/redis_streams/__init__.py
   lines 144..225
   ======================================================================== -/

/-- A raw message of a Redis `xreadgroup` batch, restricted to the fields
the decoding loop consults: the broker-assigned internal id, the `type`
field naming the payload datatype, the serialized payload and the declared
queue label. -/
structure RedisMsg where
  msg_internal_id : Str
  msg_type : Str
  payload : Str
  queue : Str
deriving DecidableEq, Repr

/-- Decoded `StreamEvent` as built by `_decode_message`, restricted to the
fields the claim touches. -/
structure StreamEventM where
  msg_internal_id : Str
  payload : Str
  queue : Str
deriving DecidableEq, Repr

/-- An entry of the list returned by `read_stream`: either a decoded
`StreamEvent` or a `TypeError` recorded in place of the message. -/
inductive ReadStreamItem where
  | typeError (e : Str)
  | event (ev : StreamEventM)
deriving DecidableEq, Repr

/-- Embeds `_decode_message` (redis_streams lines 288..320).  The payload
deserialization itself lives in `hopeit.server.serialization` (not under
src/) and is modelled as carrying the serialized payload through; the claim
only concerns which messages are decoded at all. -/
def decode_message (m : RedisMsg) : StreamEventM :=
  ⟨m.msg_internal_id, m.payload, m.queue⟩

/-- Joins registered datatype names, standing in for the Python rendering
of the `datatypes` dict inside the error text. -/
def joinComma : List Str → Str
  | [] => []
  | [s] => s
  | s :: rest => s ++ ',' :: joinComma rest

/-- The `TypeError` text of redis_streams line 206. -/
def unknown_type_error (datatypes : List Str) (m : RedisMsg) : Str :=
  (toL "Cannot read msg_id=") ++ m.msg_internal_id ++ (toL ": msg_type=") ++
    m.msg_type ++ (toL " is not any of ") ++ joinComma datatypes

/-- Embeds the per-message loop of `RedisStreamManager.read_stream`
(redis_streams lines 200..219): each message whose `type` is not among the
registered datatypes contributes a `TypeError` entry at its position; every
other message is decoded; the loop never aborts the batch. -/
def read_stream_batch (datatypes : List Str) (batch : List RedisMsg) :
    List ReadStreamItem :=
  batch.map (fun msg =>
    if datatypes.contains msg.msg_type then
      ReadStreamItem.event (decode_message msg)
    else
      ReadStreamItem.typeError (unknown_type_error datatypes msg))

/- ========================================================================
   Section: running-state control (`AppEngine.stop_event` / `is_running`)
   Source: src/engine/src/hopeit/server/engine.py lines 667..680
   ======================================================================== -/

/-- Embeds `AppEngine.is_running` (engine.py lines 667..668): the
`_running` dict maps each STREAM / SERVICE effective-event name to its
exclusive lock; `locked()` is the Bool in the map.  The claims only query
registered event names. -/
def is_running (running : List (Str × Bool)) (event_name : Str) : Bool :=
  match lookupA running event_name with
  | some b => b
  | none => false

/-- Embeds `AppEngine.stop_event` (engine.py lines 670..680): when the
event's lock is held it is released; otherwise a `RuntimeError` is raised.
Returns the new running map together with the optional error; on error the
map is returned unchanged. -/
def stop_event (running : List (Str × Bool)) (event_name : Str) :
    List (Str × Bool) × Option Str :=
  if is_running running event_name then
    (setA running event_name false, none)
  else
    (running,
      some ((toL "Cannot stop non running event: ") ++ event_name ++ toL "."))

/- ========================================================================
   Section: environment-variable substitution (`replace_env_vars`)
   Source: src/engine/src/hopeit/server/config.py lines 150..171
   ======================================================================== -/

/-- Characters allowed inside a variable reference: the class of the regex
pattern, every character except the two braces. -/
def isVarChar (c : Char) : Bool := !(c = '{' || c = '}')

/-- Attempts the variable-reference regex at the head of the input: a
dollar and an opening brace, then at least one non-brace character, then a
closing brace.  The greedy class with backtracking reduces to: the maximal
run of non-brace characters after the opening must be nonempty and directly
followed by a closing brace.  Returns the variable name and the rest of the
input after the match. -/
def matchAt : Str → Option (Str × Str)
  | c1 :: c2 :: rest =>
    let v := rest.takeWhile isVarChar
    let w := rest.dropWhile isVarChar
    if c1 = '$' ∧ c2 = '{' ∧ v ≠ [] ∧ w.head? = some '}' then
      some (v, w.tail)
    else none
  | _ => none

/-- Embeds `re.finditer` over the variable-reference regex: tries a match
at every position left to right, resuming after each match.  The fuel is
the remaining input length, so the recursion is structural and reduces in
the kernel; `findMatches` below supplies adequate fuel.  Returns the pairs
(whole match, group 1). -/
def findMatchesGo : Nat → Str → List (Str × Str)
  | 0, _ => []
  | _ + 1, [] => []
  | fuel + 1, c :: rest =>
    match matchAt (c :: rest) with
    | some (v, rest') =>
      ('$' :: '{' :: (v ++ '}' :: []), v) :: findMatchesGo fuel rest'
    | none => findMatchesGo fuel rest

/-- All matches of the variable-reference regex, left to right. -/
def findMatches (s : Str) : List (Str × Str) := findMatchesGo s.length s

/-- Embeds Python `str.replace` (all non-overlapping occurrences, left to
right), with the input length as structural fuel.  An empty pattern leaves
the string unchanged (the patterns used here are never empty). -/
def replaceGo (pat rep : Str) : Nat → Str → Str
  | 0, s => s
  | _ + 1, [] => []
  | fuel + 1, c :: cs =>
    if pat ≠ [] ∧ pat.isPrefixOf (c :: cs) then
      rep ++ replaceGo pat rep fuel ((c :: cs).drop pat.length)
    else
      c :: replaceGo pat rep fuel cs

/-- `s.replace(pat, rep)` of Python. -/
def replaceAllL (s pat rep : Str) : Str := replaceGo pat rep s.length s

/-- Python `str.upper`, modelling the case-insensitive variable lookup. -/
def upperStr (s : Str) : Str := s.map Char.toUpper

/-- Embeds the replacement loop of `replace_env_vars` (config.py lines
157..164): iterate over the matches found in the *original* string (the
`finditer` iterator is built before any reassignment of `result`); for each
match look up the uppercased variable name in the environment and, when
present, replace every occurrence of the whole match in the accumulated
result. -/
def replace_env_pass (env : List (Str × Str)) (s : Str) : Str :=
  (findMatches s).foldl (fun result m =>
    match lookupA env (upperStr m.2) with
    | some value => replaceAllL result m.1 value
    | none => result) s

/-- Embeds `replace_env_vars` (config.py lines 150..171): after the
replacement pass, assert that no variable reference remains in the result
(`assert len(missing_env_vars) == 0`); the assertion error carries the
unreplaced variable names. -/
def replace_env_vars (env : List (Str × Str)) (config_json : Str) :
    Except Str Str :=
  let result := replace_env_pass env config_json
  if findMatches result = [] then Except.ok result
  else
    Except.error ((toL "Cannot get value from OS environment vars: ") ++
      joinComma ((findMatches result).map Prod.snd))

/-- Declarative reading of "some variable-reference pattern remains in s":
a decomposition around a dollar-brace opening, a nonempty brace-free
variable body, and a closing brace.  Stated independently of the scanner so
that the claim theorem is not a restatement of the definition. -/
def containsPattern (s : Str) : Prop :=
  ∃ a v b, s = a ++ '$' :: '{' :: (v ++ '}' :: b) ∧ v ≠ [] ∧
    ∀ c ∈ v, isVarChar c = true

/- ========================================================================
   Section: config argument substitution (`replace_config_args`)
   Source: src/engine/src/hopeit/server/config.py lines 174..286
   ======================================================================== -/

/-- Python `pat in s` (substring test), structural on `s`. -/
def containsSub : Str → Str → Bool
  | [], pat => pat.isEmpty
  | c :: rest, pat => pat.isPrefixOf (c :: rest) || containsSub rest pat

/-- A parsed configuration tree: string leaves and attribute nodes.  The
field lists must be sorted by name, mirroring the alphabetical `dir(node)`
iteration of `_replace_attrs`; the concrete configurations below are. -/
inductive CNode where
  | str : Str → CNode
  | obj : List (Str × CNode) → CNode

mutual

/-- Embeds `_replace_in_config` (config.py lines 223..237): replaces every
occurrence of `expr` by `repl` in every string of the tree (the `expr in
value` test of the source guards each `str.replace`). -/
def replaceInConfig (expr repl : Str) : CNode → CNode
  | CNode.str s =>
    CNode.str (if containsSub s expr then replaceAllL s expr repl else s)
  | CNode.obj fs => CNode.obj (replaceInConfigFields expr repl fs)

def replaceInConfigFields (expr repl : Str) :
    List (Str × CNode) → List (Str × CNode)
  | [] => []
  | (k, v) :: rest =>
    (k, replaceInConfig expr repl v) :: replaceInConfigFields expr repl rest

end

mutual

/-- Reads the string value at a dotted path of the tree. -/
def getStr : CNode → List Str → Option Str
  | CNode.str s, [] => some s
  | CNode.str _, _ :: _ => none
  | CNode.obj _, [] => none
  | CNode.obj fs, k :: ks => getStrFields fs k ks

def getStrFields : List (Str × CNode) → Str → List Str → Option Str
  | [], _, _ => none
  | (k2, v) :: rest, k, ks =>
    if k2 = k then getStr v ks else getStrFields rest k ks

end

mutual

/-- Writes the string value at a dotted path of the tree (models
`setattr` on the node holding the attribute). -/
def setStr : CNode → List Str → Str → CNode
  | CNode.str _, [], value => CNode.str value
  | CNode.str s, _ :: _, _ => CNode.str s
  | CNode.obj fs, [], _ => CNode.obj fs
  | CNode.obj fs, k :: ks, value => CNode.obj (setStrFields fs k ks value)

def setStrFields :
    List (Str × CNode) → Str → List Str → Str → List (Str × CNode)
  | [], _, _, _ => []
  | (k2, v) :: rest, k, ks, value =>
    if k2 = k then (k2, setStr v ks value) :: rest
    else (k2, v) :: setStrFields rest k ks value

end

mutual

/-- The string-leaf paths of the tree in the visiting order of
`_replace_attrs` (config.py lines 265..282): attributes in field order,
string attributes acted on in place, object attributes recursed into. -/
def leafVisits : CNode → List (List Str)
  | CNode.str _ => []
  | CNode.obj fs => leafVisitsFields fs

def leafVisitsFields : List (Str × CNode) → List (List Str)
  | [] => []
  | (k, CNode.str _) :: rest => [k] :: leafVisitsFields rest
  | (k, CNode.obj fs) :: rest =>
    (leafVisitsFields fs).map (fun p => k :: p) ++ leafVisitsFields rest

end

/-- Dotted join of path components, as built by the running
`prefix_attr = f"{prefix}.{attr_name}".lstrip(".")` of the source. -/
def dotJoin : List Str → Str
  | [] => []
  | [p] => p
  | p :: rest => p ++ '.' :: dotJoin rest

/-- The literal placeholder `{auto}` looked for in every string value. -/
def autoPat : Str := '{' :: ((toL "auto") ++ ('}' :: []))

/-- The substitution expression `"{" + prefix_attr + "}"` of config.py
lines 247 and 275. -/
def exprOf (path : List Str) : Str := '{' :: (dotJoin path ++ ('}' :: []))

/-- Modelled from the spec: `auto_path_prefixed` (hopeit.server.names, not
under src/) builds the auto path by joining the configured prefix and the
position keys with the dot separator. -/
def auto_path_prefixed (pfx : Str) (path : List Str) : Str :=
  dotJoin (if pfx = [] then path else pfx :: path)

/-- One string-leaf visit of `_replace_attrs` (config.py lines 271..276),
threading the whole tree: read the current value at the path; if it
contains `{auto}`, substitute the auto path in place; otherwise replace
every occurrence of the path expression in the whole tree by the value. -/
def visitLeaf (autoPfx : Str) (root : CNode) (path : List Str) : CNode :=
  match getStr root path with
  | none => root
  | some value =>
    if containsSub value autoPat then
      setStr root path
        (replaceAllL value autoPat (auto_path_prefixed autoPfx path))
    else
      replaceInConfig (exprOf path) value root

/-- One full pass of `_replace_attrs` over the tree (global replacements
apply to the whole tree immediately, so later visits read updated
values). -/
def replace_config_pass (autoPfx : Str) (root : CNode) : CNode :=
  (leafVisits root).foldl (visitLeaf autoPfx) root

/-- Embeds `replace_config_args` (config.py lines 174..286): the pass runs
twice so that values referring to other generated values are resolved. -/
def replace_config_args (autoPfx : Str) (root : CNode) : CNode :=
  replace_config_pass autoPfx (replace_config_pass autoPfx root)

/-- Two-field configuration shape of the claim: `cfg.a.b = u`,
`cfg.c.d = v` (field lists alphabetically sorted as `dir` iterates). -/
def cfgS (u v : Str) : CNode :=
  CNode.obj [(toL "a", CNode.obj [(toL "b", CNode.str u)]),
             (toL "c", CNode.obj [(toL "d", CNode.str v)])]

/-- Three-field configuration shape for the chained substitution:
`cfg.a.b = u`, `cfg.c.d = v`, `cfg.e.f = w`. -/
def cfgC (u v w : Str) : CNode :=
  CNode.obj [(toL "a", CNode.obj [(toL "b", CNode.str u)]),
             (toL "c", CNode.obj [(toL "d", CNode.str v)]),
             (toL "e", CNode.obj [(toL "f", CNode.str w)])]

/- ========================================================================
   Theorems
   ======================================================================== -/

theorem lookupA_setA {β : Type} (l : List (Str × β)) (k : Str) (b v : β)
    (h : lookupA l k = some b) : lookupA (setA l k v) k = some v := by
  induction l with
  | nil => simp [lookupA] at h
  | cons p rest ih =>
    obtain ⟨k', b'⟩ := p
    by_cases hk : k' = k
    · simp [lookupA, setA, hk]
    · simp [lookupA, setA, hk] at h ⊢
      exact ih h

theorem dollar_append_inj (a : Str) :
    ∀ (b u v : Str), '$' ∉ a → '$' ∉ b →
      a ++ '$' :: u = b ++ '$' :: v → a = b ∧ u = v := by
  induction a with
  | nil =>
    intro b u v _ hb h
    cases b with
    | nil => simpa using h
    | cons c b' =>
      simp only [List.nil_append, List.cons_append, List.cons.injEq] at h
      exact absurd (h.1 ▸ List.mem_cons_self c b') hb
  | cons c a' ih =>
    intro b u v ha hb h
    cases b with
    | nil =>
      simp only [List.cons_append, List.nil_append, List.cons.injEq] at h
      exact absurd (h.1.symm ▸ List.mem_cons_self c a') ha
    | cons c' b' =>
      simp only [List.cons_append, List.cons.injEq] at h
      have ha' : '$' ∉ a' := fun hx => ha (List.mem_cons_of_mem c hx)
      have hb' : '$' ∉ b' := fun hx => hb (List.mem_cons_of_mem c' hx)
      obtain ⟨rfl, h2⟩ := h
      obtain ⟨rfl, rfl⟩ := ih b' u v ha' hb' h2
      exact ⟨rfl, rfl⟩

theorem derived_from_inj (e e' k : Str) (he : '$' ∉ e) (he' : '$' ∉ e')
    (h1 : derived_from e k) (h2 : derived_from e' k) : e = e' := by
  rcases h1 with rfl | ⟨s, rfl⟩
  · rcases h2 with rfl | ⟨s', h⟩
    · rfl
    · exact absurd (h ▸ List.mem_append_right e' (List.mem_cons_self _ _)) he
  · rcases h2 with h | ⟨s', h⟩
    · exact absurd (h.symm ▸
        List.mem_append_right e (List.mem_cons_self _ _)) he'
    · exact (dollar_append_inj e e' s s' he he' h).1

theorem effective_contribution_keys (enabled_groups : List Str)
    (p q : Str × EventDescriptorM)
    (hq : q ∈ effective_contribution enabled_groups p) :
    derived_from p.1 q.1 := by
  unfold effective_contribution at hq
  split at hq
  · rcases List.mem_append.mp hq with hq | hq
    · unfold split_event_stages at hq
      rcases List.mem_cons.mp hq with rfl | hq
      · exact Or.inl rfl
      · obtain ⟨s, _, rfl⟩ := List.mem_map.mp hq
        exact Or.inr ⟨s, rfl⟩
    · unfold service_sibling at hq
      split at hq
      · rcases List.mem_cons.mp hq with rfl | hq
        · exact Or.inr ⟨toL "__service__", rfl⟩
        · simp at hq
      · simp at hq
  · simp at hq

theorem nodup_keys_eq {β : Type} (l : List (Str × β))
    (hnd : (l.map Prod.fst).Nodup) (k : Str) (a b : β)
    (ha : (k, a) ∈ l) (hb : (k, b) ∈ l) : a = b := by
  induction l with
  | nil => simp at ha
  | cons p rest ih =>
    simp only [List.map_cons, List.nodup_cons] at hnd
    rcases List.mem_cons.mp ha with rfl | ha' <;>
      rcases List.mem_cons.mp hb with hb' | hb'
    · exact (congrArg Prod.snd hb').symm
    · exact absurd (List.mem_map.mpr ⟨(k, b), hb', rfl⟩) hnd.1
    · rw [← hb'] at hnd
      exact absurd (List.mem_map.mpr ⟨(k, a), ha', rfl⟩) hnd.1
    · exact ih hnd.2 ha' hb'

theorem execute_event_loop_result {α : Type} (batch_size : Nat)
    (write_stream : Bool) (yields : List (Option α)) :
    ∀ batch r, (execute_event_loop batch_size write_stream yields batch r).2 =
      yields.getLastD r := by
  induction yields with
  | nil => intro batch r; simp [execute_event_loop]
  | cons y rest ih =>
    intro batch r
    cases y <;> simp only [execute_event_loop, List.getLastD_cons] <;>
      split <;> simp [ih]

theorem execute_event_loop_flatten {α : Type} (batch_size : Nat)
    (yields : List (Option α)) :
    ∀ batch r,
      (execute_event_loop batch_size true yields batch r).1.flatten =
        batch ++ yields.filterMap id := by
  induction yields with
  | nil =>
    intro batch r
    cases batch <;> simp [execute_event_loop]
  | cons y rest ih =>
    intro batch r
    cases y with
    | none =>
      simp only [execute_event_loop]
      split
      · simp [ih]
      · simp [ih]
    | some v =>
      simp only [execute_event_loop]
      split
      · simp [ih]
      · simp [ih]

theorem execute_event_loop_sizes {α : Type} (batch_size : Nat)
    (hbs : 0 < batch_size) (yields : List (Option α)) :
    ∀ batch r, batch.length < batch_size →
      (∀ b ∈ (execute_event_loop batch_size true yields batch r).1.dropLast,
        b.length = batch_size) ∧
      (∀ b ∈ (execute_event_loop batch_size true yields batch r).1,
        0 < b.length ∧ b.length ≤ batch_size) := by
  induction yields with
  | nil =>
    intro batch r hlt
    constructor
    · intro b hb
      simp only [execute_event_loop] at hb
      split at hb <;> simp_all [List.dropLast_single]
    · intro b hb
      simp only [execute_event_loop] at hb
      split at hb <;> simp_all
      omega
  | cons y rest ih =>
    intro batch r hlt
    have step : ∀ (batch' : List α),
        batch'.length ≤ batch_size → (batch_size ≤ batch'.length ∨
          batch'.length < batch_size) →
        (∀ b ∈ (if batch_size ≤ batch'.length ∧ True = true then
            let next := execute_event_loop batch_size true rest [] (y : Option α)
            (batch' :: next.1, next.2)
          else execute_event_loop batch_size true rest batch' y).1.dropLast,
          b.length = batch_size) ∧
        (∀ b ∈ (if batch_size ≤ batch'.length ∧ True = true then
            let next := execute_event_loop batch_size true rest [] (y : Option α)
            (batch' :: next.1, next.2)
          else execute_event_loop batch_size true rest batch' y).1,
          0 < b.length ∧ b.length ≤ batch_size) := by
      intro batch' hle _
      by_cases hfull : batch_size ≤ batch'.length
      · have hblen : batch'.length = batch_size := le_antisymm hle hfull
        have hrec := ih [] y (by simpa using hbs)
        simp only [hfull, true_and, if_pos, and_self, if_true]
        constructor
        · intro b hb
          rcases hrest : (execute_event_loop batch_size true rest [] y).1 with
            _ | ⟨x, xs⟩
          · simp [hrest, List.dropLast_single] at hb
          · rw [hrest] at hb
            rw [List.dropLast_cons₂] at hb
            rcases List.mem_cons.mp hb with hb | hb
            · rw [hb]; exact hblen
            · exact hrec.1 b (by rw [hrest]; exact hb)
        · intro b hb
          rcases List.mem_cons.mp hb with hb | hb
          · rw [hb]; exact ⟨by omega, le_of_eq hblen⟩
          · exact hrec.2 b hb
      · have hlt' : batch'.length < batch_size := lt_of_not_ge hfull
        simp only [hfull, false_and, if_neg, if_false]
        exact ih batch' y hlt'
    cases y with
    | none =>
      simp only [execute_event_loop]
      have h := step batch (le_of_lt hlt) (Or.inr hlt)
      simpa using h
    | some v =>
      simp only [execute_event_loop]
      have h := step (batch ++ [v]) (by simp; omega)
        (by by_cases hc : batch_size ≤ (batch ++ [v]).length
            · exact Or.inl hc
            · exact Or.inr (lt_of_not_ge hc))
      simpa using h

/-- C3: for an invocation whose handler yields `yields` (with `N` non-null
entries) and whose event declares `writeStream`, the flushed batches contain
exactly the `N` non-null results in yield order (hence exactly `N` outbound
`_write_stream` calls), every flush has at most `batch_size` items, no flush
is empty, and every flush except possibly the single trailing one has
exactly `batch_size` items. -/
theorem execute_event_batching {α : Type} (batch_size : Nat)
    (yields : List (Option α)) (hbs : 0 < batch_size) :
    ((execute_event batch_size true yields).1.flatten = yields.filterMap id) ∧
    (((execute_event batch_size true yields).1.map List.length).sum =
      (yields.filterMap id).length) ∧
    (∀ b ∈ (execute_event batch_size true yields).1.dropLast,
      b.length = batch_size) ∧
    (∀ b ∈ (execute_event batch_size true yields).1,
      0 < b.length ∧ b.length ≤ batch_size) := by
  have hflat := execute_event_loop_flatten batch_size yields
    ([] : List α) (none : Option α)
  have hsz := execute_event_loop_sizes batch_size hbs yields
    ([] : List α) (none : Option α) (by simpa using hbs)
  refine ⟨by simpa [execute_event] using hflat, ?_, hsz.1, hsz.2⟩
  have := congrArg List.length hflat
  simpa [execute_event, List.length_flatten] using this

/-- Witness for C3 on the spec scenario: `batchSize = 5`, 12 yielded
results give flushes of 5, 5 and 2 items, 12 outbound writes in total. -/
theorem execute_event_batching_witness :
    (0 < 5 ∧
      ((execute_event 5 true (List.replicate 12 (some (0 : Nat)))).1.map
        List.length).sum = 12) ∧
    (execute_event 5 true (List.replicate 12 (some (0 : Nat)))).1.map
      List.length = [5, 5, 2] := by
  refine ⟨⟨by decide, ?_⟩, by decide⟩
  have h := (execute_event_batching 5
    (List.replicate 12 (some (0 : Nat))) (by decide)).2.1
  simpa using h

/-- C4 counterexample: the claim says `execute` returns the last non-null
yielded result even when nulls are yielded after it.  For the yield
sequence `[some 1, none]` the last non-null result is `some 1`, but the
code's `result` variable is rebound on every yield (`None` included), so
`_execute_event` returns `none`. -/
theorem execute_event_last_result_counterexample :
    last_non_null [some (1 : Nat), none] = some 1 ∧
    (execute_event 5 true [some (1 : Nat), none]).2 = none ∧
    (execute_event 5 true [some (1 : Nat), none]).2 ≠
      last_non_null [some (1 : Nat), none] := by
  refine ⟨rfl, rfl, by decide⟩

/-- C4 amended: `execute` returns the *last yielded* result (null when the
handler's last yield is null, and in particular null when the handler
yields nothing), and fails with a Timeout error when
`ctx.settings.responseTimeout` elapses before completion. -/
theorem execute_event_last_result {α : Type} (timedOut : Bool)
    (batch_size : Nat) (write_stream : Bool) (yields : List (Option α)) :
    (timedOut = false →
      execute timedOut batch_size write_stream yields =
        Except.ok (yields.getLastD none)) ∧
    (execute false batch_size write_stream ([] : List (Option α)) =
      Except.ok none) ∧
    (timedOut = true →
      ∃ e, execute timedOut batch_size write_stream yields =
        Except.error e) := by
  have hres := execute_event_loop_result batch_size write_stream yields
    ([] : List α) (none : Option α)
  refine ⟨?_, ?_, ?_⟩
  · intro h
    subst h
    simp [execute, execute_event, hres]
  · simp [execute, execute_event, execute_event_loop]
  · intro h
    subst h
    exact ⟨_, rfl⟩

/-- Witness for C4 amended: concrete runs with and without timeout. -/
theorem execute_event_last_result_witness :
    execute false 5 true [some (1 : Nat), none] = Except.ok none ∧
    ∃ e, execute true 5 true [some (1 : Nat), none] = Except.error e :=
  ⟨(execute_event_last_result false 5 true [some (1 : Nat), none]).1 rfl,
    (execute_event_last_result true 5 true [some (1 : Nat), none]).2.2 rfl⟩

/-- C1: for every stream message, `_process_stream_event` issues exactly one
`ack_read_stream` call when `_execute_event` completes without raising; when
it raises (exception or cancellation) or the `stream.timeout` elapses first,
no ack is issued and the exception / Timeout value is returned, not
re-raised (returning a `StreamProcResult` is the only exit path). -/
theorem process_stream_event_ack_discipline {α : Type} (timedOut : Bool)
    (o : ExecOutcome α) :
    ((process_stream_event_with_timeout timedOut o).2 = 1 ↔
      (timedOut = false ∧ ∃ v, o = ExecOutcome.ok v)) ∧
    (timedOut = true →
      process_stream_event_with_timeout timedOut o =
        (StreamProcResult.timeoutErr, 0)) ∧
    (∀ v, timedOut = false → o = ExecOutcome.ok v →
      process_stream_event_with_timeout timedOut o =
        (StreamProcResult.value v, 1)) ∧
    (∀ e, timedOut = false → o = ExecOutcome.exc e →
      process_stream_event_with_timeout timedOut o =
        (StreamProcResult.error e, 0)) ∧
    (timedOut = false → o = ExecOutcome.cancelled →
      process_stream_event_with_timeout timedOut o =
        (StreamProcResult.cancelledErr, 0)) := by
  cases timedOut <;> cases o <;>
    simp [process_stream_event_with_timeout, process_stream_event]

/-- Witness for C1 at concrete inputs: a successful execution acks once, a
timed-out one acks zero times and yields the Timeout value. -/
theorem process_stream_event_ack_discipline_witness :
    process_stream_event_with_timeout false (ExecOutcome.ok (some (7 : Nat))) =
      (StreamProcResult.value (some 7), 1) ∧
    process_stream_event_with_timeout true (ExecOutcome.ok (some (7 : Nat))) =
      (StreamProcResult.timeoutErr, 0) :=
  ⟨(process_stream_event_ack_discipline false
      (ExecOutcome.ok (some (7 : Nat)))).2.2.1 (some 7) rfl rfl,
    (process_stream_event_ack_discipline true
      (ExecOutcome.ok (some (7 : Nat)))).2.1 rfl⟩

/-- C2: queue routing of `_write_stream`.  With a declared base name `B`:
a configured `AUTO` queue under `PROPAGATE` with non-`AUTO` upstream queue
`q` writes to stream `B.q` with queue label `q`; a configured non-`AUTO`
queue `c` under `DROP` writes to `B.c` with queue label `c`. -/
theorem write_stream_queue_routing (B q c u : Str) (hq : q ≠ AUTO)
    (hc : c ≠ AUTO) :
    write_stream_targets ⟨B, [AUTO], StreamQueueStrategy.PROPAGATE⟩ q =
      [(B ++ '.' :: q, q)] ∧
    write_stream_targets ⟨B, [c], StreamQueueStrategy.DROP⟩ u =
      [(B ++ '.' :: c, c)] := by
  constructor
  · simp [write_stream_targets, hq]
  · simp [write_stream_targets, hc]

/-- Witness for C2 on the spec scenarios: inbound queue label `high-prio`,
declared `writeStream` with base `out`. -/
theorem write_stream_queue_routing_witness :
    write_stream_targets ⟨toL "out", [AUTO], StreamQueueStrategy.PROPAGATE⟩
        (toL "high-prio") =
      [(toL "out.high-prio", toL "high-prio")] ∧
    write_stream_targets ⟨toL "out", [toL "low"], StreamQueueStrategy.DROP⟩
        (toL "high-prio") =
      [(toL "out.low", toL "low")] := by
  have h := write_stream_queue_routing (toL "out") (toL "high-prio")
    (toL "low") (toL "high-prio") (by decide) (by decide)
  exact ⟨by rw [h.1]; decide, by rw [h.2]; decide⟩

/-- C6 counterexample: the claim states the wait lies in
`[d/2, d + d/2)`.  For `d = 2` the draws `r1 = 0, r2 = 1` (both legal for
`random.randint`) give wait `0 < d/2 = 1`, and the draws `r1 = 2, r2 = 0`
give wait `3 = d + d/2`, outside the half-open interval. -/
theorem startup_wait_counterexample :
    (0 ≤ 2 ∧ 1 ≤ 2 / 2 ∧ 2 ≤ 2 ∧ 0 ≤ 2 / 2) ∧
    startup_wait 2 0 1 = 0 ∧
    startup_wait 2 0 1 < ((2 / 2 : Nat) : Int) ∧
    startup_wait 2 2 0 = ((2 : Nat) : Int) + ((2 / 2 : Nat) : Int) := by
  refine ⟨by decide, ?_, ?_, ?_⟩ <;> decide

/-- C6 amended: for `d > 0` and all legal draws (`r1 ≤ d`, `r2 ≤ d/2`), the
randomized start-up wait lies in the closed interval `[0, d + d/2]` seconds,
where `d/2` is integer division. -/
theorem startup_wait_bounds (d r1 r2 : Nat) (hd : 0 < d) (h1 : r1 ≤ d)
    (h2 : r2 ≤ d / 2) :
    0 ≤ startup_wait d r1 r2 ∧
      startup_wait d r1 r2 ≤ (d : Int) + ((d / 2 : Nat) : Int) := by
  unfold startup_wait
  omega

/-- Witness for C6 amended bounds at `d = 3`, `r1 = 3`, `r2 = 0`. -/
theorem startup_wait_bounds_witness :
    (0 < 3 ∧ 3 ≤ 3 ∧ 0 ≤ 3 / 2) ∧
    0 ≤ startup_wait 3 3 0 ∧
      startup_wait 3 3 0 ≤ ((3 : Nat) : Int) + ((3 / 2 : Nat) : Int) :=
  ⟨by decide, startup_wait_bounds 3 3 0 (by decide) (by decide) (by decide)⟩

/-- C5 counterexample: the claim says an effective event exists for a
declared event iff its group is in `enabledGroups` or is the default
group.  With `enabledGroups = []` and a declared event of group
`special` (neither default nor in the empty list), the code includes the
event anyway (engine.py line 700: an empty `enabled_groups` enables every
group). -/
theorem config_effective_events_counterexample :
    ((toL "ev", (⟨EventTypeM.STREAM, toL "special", [], false⟩ :
        EventDescriptorM)) ∈
      config_effective_events
        [(toL "ev", ⟨EventTypeM.STREAM, toL "special", [], false⟩)] []) ∧
    (toL "special" ≠ DEFAULT_GROUP ∧ toL "special" ∉ ([] : List Str)) := by
  refine ⟨?_, by decide⟩
  decide

/-- C5 amended: for declared events with distinct, `$`-free names, the
effective-events map contains an effective event derived from a declared
event iff its group is in `enabledGroups`, or is the default group, or
`enabledGroups` is empty (in which case every group is enabled). -/
theorem config_effective_events_group_filter
    (events : List (Str × EventDescriptorM)) (enabled_groups : List Str)
    (e : Str) (info : EventDescriptorM)
    (hmem : (e, info) ∈ events)
    (hdollar : ∀ p ∈ events, '$' ∉ p.1)
    (hnodup : (events.map Prod.fst).Nodup) :
    (∃ q ∈ config_effective_events events enabled_groups,
        derived_from e q.1) ↔
      (enabled_groups = [] ∨ info.group = DEFAULT_GROUP ∨
        info.group ∈ enabled_groups) := by
  constructor
  · rintro ⟨q, hq, hder⟩
    obtain ⟨l, hl, hql⟩ := List.mem_flatten.mp hq
    obtain ⟨p, hp, rfl⟩ := List.mem_map.mp hl
    have hcond : enabled_groups.length = 0 ∨ p.2.group = DEFAULT_GROUP ∨
        p.2.group ∈ enabled_groups := by
      by_contra hc
      simp only [effective_contribution, if_neg hc] at hql
      exact (List.not_mem_nil q) hql
    have hder' := effective_contribution_keys enabled_groups p q hql
    have hkey : e = p.1 :=
      derived_from_inj e p.1 q.1 (hdollar (e, info) hmem) (hdollar p hp)
        hder hder'
    have hinfo : info = p.2 := by
      obtain ⟨p1, p2⟩ := p
      exact nodup_keys_eq events hnodup e info p2 hmem (by
        rw [hkey]; exact hp)
    rw [hinfo]
    rcases hcond with h | h
    · exact Or.inl (List.length_eq_zero.mp h)
    · exact Or.inr h
  · intro hcond
    refine ⟨(e, info), ?_, Or.inl rfl⟩
    apply List.mem_flatten.mpr
    refine ⟨effective_contribution enabled_groups (e, info),
      List.mem_map.mpr ⟨(e, info), hmem, rfl⟩, ?_⟩
    have hcond' : enabled_groups.length = 0 ∨ info.group = DEFAULT_GROUP ∨
        info.group ∈ enabled_groups := by
      rcases hcond with h | h
      · exact Or.inl (by rw [h]; rfl)
      · exact Or.inr h
    simp only [effective_contribution, if_pos hcond', split_event_stages]
    exact List.mem_append_left _ (List.mem_cons_self _ _)

/-- Witness for C5 amended: a two-event application where only the event in
the enabled group (plus the default group) yields effective events. -/
theorem config_effective_events_group_filter_witness :
    ((toL "a", (⟨EventTypeM.GET, toL "g1", [], false⟩ : EventDescriptorM)) ∈
        [(toL "a", (⟨EventTypeM.GET, toL "g1", [], false⟩ :
          EventDescriptorM))] ∧
      (∀ p ∈ [(toL "a", (⟨EventTypeM.GET, toL "g1", [], false⟩ :
          EventDescriptorM))], '$' ∉ p.1) ∧
      ([(toL "a", (⟨EventTypeM.GET, toL "g1", [], false⟩ :
          EventDescriptorM))].map Prod.fst).Nodup) ∧
    ((∃ q ∈ config_effective_events
        [(toL "a", ⟨EventTypeM.GET, toL "g1", [], false⟩)] [toL "g1"],
        derived_from (toL "a") q.1) ↔
      ([toL "g1"] = [] ∨ toL "g1" = DEFAULT_GROUP ∨
        toL "g1" ∈ [toL "g1"])) := by
  refine ⟨⟨by decide, by decide, by decide⟩, ?_⟩
  exact config_effective_events_group_filter
    [(toL "a", ⟨EventTypeM.GET, toL "g1", [], false⟩)] [toL "g1"]
    (toL "a") ⟨EventTypeM.GET, toL "g1", [], false⟩
    (by decide) (by decide) (by decide)

/-- C9: in every Redis read batch, a message of unregistered `type` yields
a `TypeError` entry at its position while every other message of the batch
is still decoded into a `StreamEvent`; the result has one entry per
message, so the batch is never aborted by an unknown type. -/
theorem read_stream_unknown_type (datatypes : List Str)
    (batch : List RedisMsg) :
    ((read_stream_batch datatypes batch).length = batch.length) ∧
    (∀ (i : Nat) (m : RedisMsg), batch[i]? = some m →
      (read_stream_batch datatypes batch)[i]? =
        some (if datatypes.contains m.msg_type then
            ReadStreamItem.event (decode_message m)
          else
            ReadStreamItem.typeError (unknown_type_error datatypes m))) := by
  refine ⟨by simp [read_stream_batch], ?_⟩
  intro i m hm
  simp [read_stream_batch, List.getElem?_map, hm]

/-- Witness for C9 on the spec scenario: batch with types `A`, `UNKNOWN`,
`A`; the middle entry is a TypeError, the others decode. -/
theorem read_stream_unknown_type_witness :
    (([⟨toL "1", toL "A", toL "p1", AUTO⟩,
        ⟨toL "2", toL "UNKNOWN", toL "p2", AUTO⟩,
        ⟨toL "3", toL "A", toL "p3", AUTO⟩] : List RedisMsg)[1]? =
      some ⟨toL "2", toL "UNKNOWN", toL "p2", AUTO⟩) ∧
    (read_stream_batch [toL "A"]
        [⟨toL "1", toL "A", toL "p1", AUTO⟩,
          ⟨toL "2", toL "UNKNOWN", toL "p2", AUTO⟩,
          ⟨toL "3", toL "A", toL "p3", AUTO⟩])[1]? =
      some (ReadStreamItem.typeError (unknown_type_error [toL "A"]
        ⟨toL "2", toL "UNKNOWN", toL "p2", AUTO⟩)) := by
  have h := (read_stream_unknown_type [toL "A"]
    [⟨toL "1", toL "A", toL "p1", AUTO⟩,
      ⟨toL "2", toL "UNKNOWN", toL "p2", AUTO⟩,
      ⟨toL "3", toL "A", toL "p3", AUTO⟩]).2 1
    ⟨toL "2", toL "UNKNOWN", toL "p2", AUTO⟩ (by decide)
  refine ⟨by decide, ?_⟩
  rw [h]
  decide

/-- C10: for every registered event name, `stop_event` on a non-running
event raises a `RuntimeError` and leaves every event's running state
unchanged; on a running event it releases the token so that `is_running`
returns false afterwards. -/
theorem stop_event_behavior (running : List (Str × Bool)) (name : Str)
    (b : Bool) (hreg : lookupA running name = some b) :
    (b = false →
      (stop_event running name).2 =
        some ((toL "Cannot stop non running event: ") ++ name ++ toL ".") ∧
      (stop_event running name).1 = running) ∧
    (b = true →
      (stop_event running name).2 = none ∧
      is_running (stop_event running name).1 name = false) := by
  constructor
  · rintro rfl
    have hrun : is_running running name = false := by
      simp [is_running, hreg]
    simp [stop_event, hrun]
  · rintro rfl
    have hrun : is_running running name = true := by
      simp [is_running, hreg]
    have hset := lookupA_setA running name true false hreg
    constructor
    · simp [stop_event, hrun]
    · have hfst : (stop_event running name).1 = setA running name false := by
        simp [stop_event, hrun]
      rw [hfst]
      simp [is_running, hset]

/-- Witness for C10: a registered running event stops cleanly; a
registered non-running event raises and the map is unchanged. -/
theorem stop_event_behavior_witness :
    (lookupA [(toL "e", true)] (toL "e") = some true ∧
      (stop_event [(toL "e", true)] (toL "e")).2 = none ∧
      is_running (stop_event [(toL "e", true)] (toL "e")).1 (toL "e") =
        false) ∧
    (lookupA [(toL "e", false)] (toL "e") = some false ∧
      (stop_event [(toL "e", false)] (toL "e")).1 = [(toL "e", false)]) := by
  have h1 := (stop_event_behavior [(toL "e", true)] (toL "e") true
    (by decide)).2 rfl
  have h2 := (stop_event_behavior [(toL "e", false)] (toL "e") false
    (by decide)).1 rfl
  exact ⟨⟨by decide, h1.1, h1.2⟩, ⟨by decide, h2.2⟩⟩

theorem takeWhile_dropWhile_split (v b : Str)
    (hv : ∀ c ∈ v, isVarChar c = true) :
    (v ++ '}' :: b).takeWhile isVarChar = v ∧
    (v ++ '}' :: b).dropWhile isVarChar = '}' :: b := by
  induction v with
  | nil => constructor <;> simp [List.takeWhile_cons, List.dropWhile_cons,
      isVarChar]
  | cons c v' ih =>
    have hc : isVarChar c = true := hv c (List.mem_cons_self c v')
    have ih' := ih (fun x hx => hv x (List.mem_cons_of_mem c hx))
    constructor <;>
      simp [List.takeWhile_cons, List.dropWhile_cons, hc, ih'.1, ih'.2]

theorem matchAt_rest_length (s v : Str) (rest' : Str)
    (h : matchAt s = some (v, rest')) : rest'.length < s.length := by
  match s with
  | [] => simp [matchAt] at h
  | [c] => simp [matchAt] at h
  | c1 :: c2 :: rest =>
    simp only [matchAt] at h
    split at h
    · rename_i hcc
      injection h with h1
      have hr : rest' = (rest.dropWhile isVarChar).tail :=
        (congrArg Prod.snd h1).symm
      have hw : rest.dropWhile isVarChar ≠ [] := by
        intro hnil
        rw [hnil] at hcc
        simp at hcc
      have hsub : (rest.dropWhile isVarChar).length ≤ rest.length :=
        (List.dropWhile_sublist isVarChar).length_le
      have htail : (rest.dropWhile isVarChar).tail.length =
          (rest.dropWhile isVarChar).length - 1 := List.length_tail _
      rw [hr, htail]
      simp only [List.length_cons]
      have hpos : 0 < (rest.dropWhile isVarChar).length :=
        List.length_pos.mpr hw
      omega
    · simp at h

theorem matchAt_sound (s v rest' : Str) (h : matchAt s = some (v, rest')) :
    s = '$' :: '{' :: (v ++ '}' :: rest') ∧ v ≠ [] ∧
      ∀ c ∈ v, isVarChar c = true := by
  match s with
  | [] => simp [matchAt] at h
  | [c] => simp [matchAt] at h
  | c1 :: c2 :: rest =>
    simp only [matchAt] at h
    split at h
    · rename_i hcc
      obtain ⟨rfl, rfl, hvne, hhead⟩ := hcc
      injection h with h1
      have hvtw : rest.takeWhile isVarChar = v := congrArg Prod.fst h1
      have hrt : (rest.dropWhile isVarChar).tail = rest' :=
        congrArg Prod.snd h1
      have hwcons : rest.dropWhile isVarChar = '}' :: rest' := by
        rcases hw : rest.dropWhile isVarChar with _ | ⟨w0, wr⟩
        · rw [hw] at hhead; simp at hhead
        · rw [hw] at hhead hrt
          simp only [List.head?_cons, Option.some.injEq] at hhead
          simp only [List.tail_cons] at hrt
          rw [hhead, hrt]
      have hsplit : rest.takeWhile isVarChar ++
          rest.dropWhile isVarChar = rest :=
        List.takeWhile_append_dropWhile isVarChar rest
      rw [hvtw, hwcons] at hsplit
      refine ⟨by rw [← hsplit], hvtw ▸ hvne, ?_⟩
      intro c hc
      exact List.mem_takeWhile_imp (hvtw ▸ hc)
    · simp at h

theorem matchAt_complete (v b : Str) (hv : v ≠ [])
    (hvc : ∀ c ∈ v, isVarChar c = true) :
    matchAt ('$' :: '{' :: (v ++ '}' :: b)) = some (v, b) := by
  have hsplit := takeWhile_dropWhile_split v b hvc
  simp only [matchAt, hsplit.1, hsplit.2]
  simp [hv]

theorem findMatchesGo_ne_nil (fuel : Nat) :
    ∀ s : Str, s.length ≤ fuel → containsPattern s →
      findMatchesGo fuel s ≠ [] := by
  induction fuel with
  | zero =>
    intro s hlen hc
    obtain ⟨a, v, b, heq, _, _⟩ := hc
    have hz : s.length = 0 := Nat.le_zero.mp hlen
    rw [heq] at hz
    simp at hz
  | succ fuel ih =>
    intro s hlen hc
    obtain ⟨a, v, b, heq, hv, hvc⟩ := hc
    cases a with
    | nil =>
      simp only [List.nil_append] at heq
      subst heq
      simp [findMatchesGo, matchAt_complete v b hv hvc]
    | cons c a' =>
      subst heq
      simp only [List.cons_append] at hlen ⊢
      cases hma : matchAt (c :: (a' ++ '$' :: '{' :: (v ++ '}' :: b))) with
      | some p =>
        obtain ⟨mv, mrest⟩ := p
        simp [findMatchesGo, hma]
      | none =>
        simp only [findMatchesGo, hma]
        have hlen' : (a' ++ '$' :: '{' :: (v ++ '}' :: b)).length ≤ fuel := by
          simp only [List.length_cons] at hlen
          omega
        exact ih (a' ++ '$' :: '{' :: (v ++ '}' :: b)) hlen'
          ⟨a', v, b, rfl, hv, hvc⟩

theorem containsPattern_of_findMatchesGo (fuel : Nat) :
    ∀ s : Str, findMatchesGo fuel s ≠ [] → containsPattern s := by
  induction fuel with
  | zero => intro s h; simp [findMatchesGo] at h
  | succ fuel ih =>
    intro s h
    cases s with
    | nil => simp [findMatchesGo] at h
    | cons c rest =>
      cases hma : matchAt (c :: rest) with
      | some p =>
        obtain ⟨mv, mrest⟩ := p
        obtain ⟨heq, hvne, hvc⟩ := matchAt_sound _ _ _ hma
        exact ⟨[], mv, mrest, by simpa using heq, hvne, hvc⟩
      | none =>
        simp only [findMatchesGo, hma] at h
        obtain ⟨a, v, b, heq, hv, hvc⟩ := ih rest h
        exact ⟨c :: a, v, b, by rw [heq, List.cons_append], hv, hvc⟩

theorem findMatches_eq_nil_iff (s : Str) :
    findMatches s = [] ↔ ¬ containsPattern s := by
  constructor
  · intro h hc
    exact findMatchesGo_ne_nil s.length s (le_refl _) hc h
  · intro h
    by_contra hne
    exact h (containsPattern_of_findMatchesGo s.length s hne)

/-- C7: `replace_env_vars` performs the case-insensitive replacement pass
over the matches of the input and then asserts on the result: it succeeds
returning exactly the replaced string, which then contains no variable
reference, and it raises the assertion error precisely when some
variable-reference pattern remains unreplaced in the result. -/
theorem replace_env_vars_assertion (env : List (Str × Str)) (s : Str) :
    (∀ r, replace_env_vars env s = Except.ok r →
      r = replace_env_pass env s ∧ ¬ containsPattern r) ∧
    ((∃ m, replace_env_vars env s = Except.error m) ↔
      containsPattern (replace_env_pass env s)) := by
  by_cases h : findMatches (replace_env_pass env s) = []
  · have hok : replace_env_vars env s =
        Except.ok (replace_env_pass env s) := by
      simp [replace_env_vars, h]
    constructor
    · intro r hr
      have hrr := hok.symm.trans hr
      injection hrr with hpr
      exact ⟨hpr.symm, hpr ▸ (findMatches_eq_nil_iff _).mp h⟩
    · constructor
      · rintro ⟨m, hm⟩
        rw [hok] at hm
        exact absurd hm (by simp)
      · intro hc
        exact absurd hc ((findMatches_eq_nil_iff _).mp h)
  · have herr : replace_env_vars env s =
        Except.error ((toL "Cannot get value from OS environment vars: ") ++
          joinComma ((findMatches (replace_env_pass env s)).map Prod.snd)) :=
      by simp [replace_env_vars, h]
    constructor
    · intro r hr
      rw [herr] at hr
      exact absurd hr (by simp)
    · constructor
      · intro _
        by_contra hnc
        exact h ((findMatches_eq_nil_iff _).mpr hnc)
      · intro _
        exact ⟨_, herr⟩

/-- Witness for C7: with environment `HOME=/root`, the input
`dir=${home}/x` (with a lowercase reference) resolves through the
uppercased lookup to `dir=/root/x`, no pattern remains, and no assertion
error is raised. -/
theorem replace_env_vars_assertion_witness :
    (replace_env_vars [(toL "HOME", toL "/root")]
        ((toL "dir=") ++ '$' :: '{' :: (toL "home") ++ '}' :: (toL "/x")) =
      Except.ok (toL "dir=/root/x")) ∧
    toL "dir=/root/x" =
      replace_env_pass [(toL "HOME", toL "/root")]
        ((toL "dir=") ++ '$' :: '{' :: (toL "home") ++ '}' :: (toL "/x")) ∧
    ¬ containsPattern (toL "dir=/root/x") := by
  have happ := (replace_env_vars_assertion [(toL "HOME", toL "/root")]
    ((toL "dir=") ++ '$' :: '{' :: (toL "home") ++ '}' :: (toL "/x"))).1
    (toL "dir=/root/x") (by rfl)
  exact ⟨by rfl, happ.1, happ.2⟩

theorem isPrefixOf_self (l : Str) : l.isPrefixOf l = true := by
  induction l with
  | nil => rfl
  | cons c rest ih => simp [List.isPrefixOf, ih]

theorem containsSub_self (s : Str) (h : s ≠ []) : containsSub s s = true := by
  cases s with
  | nil => exact absurd rfl h
  | cons c rest => simp [containsSub, isPrefixOf_self]

theorem containsSub_brace_free (s p : Str) (hs : '{' ∉ s) :
    containsSub s ('{' :: p) = false := by
  induction s with
  | nil => rfl
  | cons c rest ih =>
    have hc : ('{' : Char) ≠ c := by
      intro h
      exact hs (by rw [h]; exact List.mem_cons_self c rest)
    have hrest : '{' ∉ rest := fun hr => hs (List.mem_cons_of_mem c hr)
    have hbeq : (('{' : Char) == c) = false := beq_eq_false_iff_ne.mpr hc
    simp [containsSub, List.isPrefixOf, ih hrest, hbeq]

theorem replaceGo_nil (pat rep : Str) (fuel : Nat) :
    replaceGo pat rep fuel [] = [] := by
  cases fuel <;> rfl

theorem replaceGo_not_contains (pat rep : Str) :
    ∀ (fuel : Nat) (s : Str), containsSub s pat = false →
      replaceGo pat rep fuel s = s := by
  intro fuel
  induction fuel with
  | zero => intro s _; rfl
  | succ fuel ih =>
    intro s hs
    cases s with
    | nil => rfl
    | cons c cs =>
      simp only [containsSub, Bool.or_eq_false_iff] at hs
      simp only [replaceGo]
      rw [if_neg]
      · rw [ih cs hs.2]
      · intro hcond
        simp [hs.1] at hcond
      
theorem replaceAllL_not_contains (s pat rep : Str)
    (h : containsSub s pat = false) : replaceAllL s pat rep = s :=
  replaceGo_not_contains pat rep s.length s h

theorem replaceAllL_self (pat rep : Str) (h : pat ≠ []) :
    replaceAllL pat pat rep = rep := by
  cases pat with
  | nil => exact absurd rfl h
  | cons c cs =>
    show replaceGo (c :: cs) rep (c :: cs).length (c :: cs) = rep
    simp only [List.length_cons, replaceGo]
    rw [if_pos ⟨List.cons_ne_nil c cs, isPrefixOf_self (c :: cs)⟩]
    have hdrop : (c :: cs).drop (c :: cs).length = [] := List.drop_length _
    simp only [List.length_cons] at hdrop
    rw [hdrop, replaceGo_nil, List.append_nil]

/-- C8: for every plain value `X` (no brace, so it is not itself a
placeholder) in a configuration with `cfg.a.b = X` and `cfg.c.d = "{a.b}"`,
after `replace_config_args` runs, `cfg.c.d = X`; and a chained substitution
(`cfg.a.b = "{e.f}"`, `cfg.c.d = "{a.b}"`, `cfg.e.f = Y`), where the value
expanded into `c.d` itself refers to another field, resolves to `Y` within
the two passes performed. -/
theorem replace_config_args_expansion (X Y : Str) (hX : '{' ∉ X)
    (hY : '{' ∉ Y) :
    getStr (replace_config_args [] (cfgS X (exprOf [toL "a", toL "b"])))
      [toL "c", toL "d"] = some X ∧
    getStr (replace_config_args []
        (cfgC (exprOf [toL "e", toL "f"]) (exprOf [toL "a", toL "b"]) Y))
      [toL "c", toL "d"] = some Y := by
  have hV : ∀ (root : CNode) (p : List Str) (val : Str),
      getStr root p = some val → containsSub val autoPat = false →
      visitLeaf [] root p = replaceInConfig (exprOf p) val root := by
    intro root p val hg hval
    simp [visitLeaf, hg, hval]
  have hRS : ∀ expr repl u v, replaceInConfig expr repl (cfgS u v) =
      cfgS (if containsSub u expr then replaceAllL u expr repl else u)
        (if containsSub v expr then replaceAllL v expr repl else v) := by
    intro expr repl u v
    rfl
  have hRC : ∀ expr repl u v w, replaceInConfig expr repl (cfgC u v w) =
      cfgC (if containsSub u expr then replaceAllL u expr repl else u)
        (if containsSub v expr then replaceAllL v expr repl else v)
        (if containsSub w expr then replaceAllL w expr repl else w) := by
    intro expr repl u v w
    rfl
  have hXauto : containsSub X autoPat = false :=
    containsSub_brace_free X ((toL "auto") ++ ('}' :: [])) hX
  have hYauto : containsSub Y autoPat = false :=
    containsSub_brace_free Y ((toL "auto") ++ ('}' :: [])) hY
  have hX_ab : containsSub X (exprOf [toL "a", toL "b"]) = false :=
    containsSub_brace_free X _ hX
  have hX_cd : containsSub X (exprOf [toL "c", toL "d"]) = false :=
    containsSub_brace_free X _ hX
  have hY_ab : containsSub Y (exprOf [toL "a", toL "b"]) = false :=
    containsSub_brace_free Y _ hY
  have hY_cd : containsSub Y (exprOf [toL "c", toL "d"]) = false :=
    containsSub_brace_free Y _ hY
  have hY_ef : containsSub Y (exprOf [toL "e", toL "f"]) = false :=
    containsSub_brace_free Y _ hY
  have hAB_AB : containsSub (exprOf [toL "a", toL "b"])
      (exprOf [toL "a", toL "b"]) = true := by decide
  have hEF_EF : containsSub (exprOf [toL "e", toL "f"])
      (exprOf [toL "e", toL "f"]) = true := by decide
  have hEF_AB : containsSub (exprOf [toL "e", toL "f"])
      (exprOf [toL "a", toL "b"]) = false := by decide
  have hEF_CD : containsSub (exprOf [toL "e", toL "f"])
      (exprOf [toL "c", toL "d"]) = false := by decide
  have hEFauto : containsSub (exprOf [toL "e", toL "f"]) autoPat = false :=
    by decide
  have hrepAB : ∀ r : Str, replaceAllL (exprOf [toL "a", toL "b"])
      (exprOf [toL "a", toL "b"]) r = r := by
    intro r
    exact replaceAllL_self _ r (by decide)
  have hrepEF : ∀ r : Str, replaceAllL (exprOf [toL "e", toL "f"])
      (exprOf [toL "e", toL "f"]) r = r := by
    intro r
    exact replaceAllL_self _ r (by decide)
  constructor
  · have s1 : visitLeaf [] (cfgS X (exprOf [toL "a", toL "b"]))
        [toL "a", toL "b"] = cfgS X X := by
      rw [hV (cfgS X (exprOf [toL "a", toL "b"])) [toL "a", toL "b"] X rfl
        hXauto, hRS, hX_ab, hAB_AB, hrepAB X]
      simp
    have s2 : visitLeaf [] (cfgS X X) [toL "c", toL "d"] = cfgS X X := by
      rw [hV (cfgS X X) [toL "c", toL "d"] X rfl hXauto, hRS, hX_cd]
      simp
    have s3 : visitLeaf [] (cfgS X X) [toL "a", toL "b"] = cfgS X X := by
      rw [hV (cfgS X X) [toL "a", toL "b"] X rfl hXauto, hRS, hX_ab]
      simp
    have hlvS : ∀ u v : Str, leafVisits (cfgS u v) =
        [[toL "a", toL "b"], [toL "c", toL "d"]] := by
      intro u v
      simp [cfgS, leafVisits, leafVisitsFields]
    have hpass1 : replace_config_pass []
        (cfgS X (exprOf [toL "a", toL "b"])) = cfgS X X := by
      rw [replace_config_pass, hlvS]
      simp only [List.foldl]
      rw [s1, s2]
    have hpass2 : replace_config_pass [] (cfgS X X) = cfgS X X := by
      rw [replace_config_pass, hlvS]
      simp only [List.foldl]
      rw [s3, s2]
    rw [replace_config_args, hpass1, hpass2]
    rfl
  · have c1 : visitLeaf [] (cfgC (exprOf [toL "e", toL "f"])
        (exprOf [toL "a", toL "b"]) Y) [toL "a", toL "b"] =
        cfgC (exprOf [toL "e", toL "f"]) (exprOf [toL "e", toL "f"]) Y := by
      rw [hV (cfgC (exprOf [toL "e", toL "f"]) (exprOf [toL "a", toL "b"]) Y)
        [toL "a", toL "b"] (exprOf [toL "e", toL "f"]) rfl hEFauto,
        hRC, hEF_AB, hAB_AB, hY_ab]
      simp [replaceAllL_self _ _ (by decide : exprOf [toL "a", toL "b"] ≠ [])]
    have c2 : visitLeaf [] (cfgC (exprOf [toL "e", toL "f"])
        (exprOf [toL "e", toL "f"]) Y) [toL "c", toL "d"] =
        cfgC (exprOf [toL "e", toL "f"]) (exprOf [toL "e", toL "f"]) Y := by
      rw [hV (cfgC (exprOf [toL "e", toL "f"]) (exprOf [toL "e", toL "f"]) Y)
        [toL "c", toL "d"] (exprOf [toL "e", toL "f"]) rfl hEFauto,
        hRC, hEF_CD, hY_cd]
      simp
    have c3 : visitLeaf [] (cfgC (exprOf [toL "e", toL "f"])
        (exprOf [toL "e", toL "f"]) Y) [toL "e", toL "f"] =
        cfgC Y Y Y := by
      rw [hV (cfgC (exprOf [toL "e", toL "f"]) (exprOf [toL "e", toL "f"]) Y)
        [toL "e", toL "f"] Y rfl hYauto, hRC, hEF_EF, hY_ef, hrepEF Y]
      simp
    have d1 : visitLeaf [] (cfgC Y Y Y) [toL "a", toL "b"] = cfgC Y Y Y := by
      rw [hV (cfgC Y Y Y) [toL "a", toL "b"] Y rfl hYauto, hRC, hY_ab]
      simp
    have d2 : visitLeaf [] (cfgC Y Y Y) [toL "c", toL "d"] = cfgC Y Y Y := by
      rw [hV (cfgC Y Y Y) [toL "c", toL "d"] Y rfl hYauto, hRC, hY_cd]
      simp
    have d3 : visitLeaf [] (cfgC Y Y Y) [toL "e", toL "f"] = cfgC Y Y Y := by
      rw [hV (cfgC Y Y Y) [toL "e", toL "f"] Y rfl hYauto, hRC, hY_ef]
      simp
    have hlvC : ∀ u v w : Str, leafVisits (cfgC u v w) =
        [[toL "a", toL "b"], [toL "c", toL "d"], [toL "e", toL "f"]] := by
      intro u v w
      simp [cfgC, leafVisits, leafVisitsFields]
    have hpass1 : replace_config_pass [] (cfgC (exprOf [toL "e", toL "f"])
        (exprOf [toL "a", toL "b"]) Y) = cfgC Y Y Y := by
      rw [replace_config_pass, hlvC]
      simp only [List.foldl]
      rw [c1, c2, c3]
    have hpass2 : replace_config_pass [] (cfgC Y Y Y) = cfgC Y Y Y := by
      rw [replace_config_pass, hlvC]
      simp only [List.foldl]
      rw [d1, d2, d3]
    rw [replace_config_args, hpass1, hpass2]
    rfl

/-- Witness for C8 at the literal values of the spec example. -/
theorem replace_config_args_expansion_witness :
    ('{' ∉ toL "X" ∧ '{' ∉ toL "Y") ∧
    getStr (replace_config_args []
        (cfgS (toL "X") (exprOf [toL "a", toL "b"]))) [toL "c", toL "d"] =
      some (toL "X") ∧
    getStr (replace_config_args []
        (cfgC (exprOf [toL "e", toL "f"]) (exprOf [toL "a", toL "b"])
          (toL "Y"))) [toL "c", toL "d"] = some (toL "Y") := by
  have h := replace_config_args_expansion (toL "X") (toL "Y")
    (by decide) (by decide)
  exact ⟨⟨by decide, by decide⟩, h.1, h.2⟩
